import Mathlib

/-!
# Verification of the perps-keepers event-indexing and action-dispatch engine

Shallow embedding of the keeper sources:

* `LiquidationKeeper` (updateIndex / hydrateIndex / liquidationGroups /
  liquidatePosition / execute),
* `DelayedOrdersKeeper` (updateIndex / executeOrder / execute) — the second,
  gas-estimating copy of the file, which is the one the specification cites,
* `Metrics.count`.

JavaScript `Record<string, T>` indices are modelled as association lists
keyed by the account string, with JS object semantics: assignment to an
existing key replaces in place, assignment to a fresh key appends, `delete`
removes.  Numeric values (prices, gas, leverage, timestamps) are modelled as
rationals; round ids and block timestamps used in comparisons are naturals.
RPC reads and transaction outcomes are supplied by explicit environment
records, and each keeper routine returns the ordered list of chain actions
(reads and submissions, with their gas-option payloads) it performs.
Concurrent per-batch tasks (`Promise.all` over accounts of one batch) touch
only their own account's entry, so the batch is serialised in list order;
`chunk`/`MAX_BATCH_SIZE` batching concatenates back to the same order.
-/

namespace PerpsKeeper

/-! ## Association-list maps (JS `Record<string, T>` semantics) -/

def getKV {α : Type} : List (String × α) → String → Option α
  | [], _ => none
  | (k', v) :: rest, k => if k' = k then some v else getKV rest k

def setKV {α : Type} : List (String × α) → String → α → List (String × α)
  | [], k, v => [(k, v)]
  | (k', v') :: rest, k, v =>
    if k' = k then (k, v) :: rest else (k', v') :: setKV rest k v

def delKV {α : Type} (m : List (String × α)) (k : String) : List (String × α) :=
  m.filter (fun p => decide (p.1 ≠ k))

def valuesKV {α : Type} (m : List (String × α)) : List α :=
  m.map (·.2)

/-! ## Metrics (`src/metrics.ts`)

`Metrics.count(name, increment)` drives a pm2 counter: `if (!increment)
metricName.dec(); metricName.inc();`.  The counter bank is modelled as a
total map from metric names to integers. -/

inductive MetricName
  | keeperError
  | delayedOrderExecuted
  | delayedOrderAlreadyExecuted
  | offchainOrderExecuted
  | positionLiquidated
  deriving DecidableEq, Repr

def MetricBank : Type := MetricName → Int

/-- The all-zero counter bank (pm2 counters start at 0). -/
def zeroBank : MetricBank := fun _ => 0

def incMetric (name : MetricName) (s : MetricBank) : MetricBank :=
  fun n => if n = name then s n + 1 else s n

def decMetric (name : MetricName) (s : MetricBank) : MetricBank :=
  fun n => if n = name then s n - 1 else s n

/-- `Metrics.count` from `src/metrics.ts`: when `increment` is false the
counter is first decremented, then (unconditionally) incremented. -/
def countMetric (name : MetricName) (increment : Bool) (s : MetricBank) : MetricBank :=
  incMetric name (if increment then s else decMetric name s)

/-! ## Positions and the LiquidationKeeper index -/

structure Position where
  id : Nat
  account : String
  size : ℚ
  leverage : ℚ
  liqPrice : ℚ
  liqPriceUpdatedTimestamp : ℚ
  deriving DecidableEq, Repr

structure LiqState where
  positions : List (String × Position)
  blockTipTimestamp : ℚ
  assetPrice : ℚ
  deriving DecidableEq, Repr

/-- 1e18, the fixed-point unit used by `wei`/`UNIT` in the source's
`PositionModified` arithmetic (`src/utils/helpers`, per §4.7 of the spec). -/
def UNIT : ℚ := 10 ^ 18

inductive LiqEventKind
  | fundingRecomputed
  | positionModified
  | positionLiquidated
  | positionFlagged
  | other
  deriving DecidableEq, Repr

/-- One decoded contract event as seen by `LiquidationKeeper.updateIndex`.
`hasArgs` models the `if (!args) return;` guard; the remaining fields carry
the args relevant to each kind (unused fields are ignored by the handler). -/
structure LiqEvent where
  kind : LiqEventKind
  hasArgs : Bool
  timestamp : ℚ
  id : Nat
  account : String
  size : ℚ
  margin : ℚ
  lastPrice : ℚ
  deriving DecidableEq, Repr

/-- The `Position` record written by the `PositionModified` handler. -/
def positionOfEvent (e : LiqEvent) : Position :=
  { id := e.id
    account := e.account
    size := e.size / UNIT
    leverage := |e.size| * e.lastPrice / (e.margin * UNIT)
    liqPrice := -1
    liqPriceUpdatedTimestamp := 0 }

/-- One step of the `events.forEach` loop in `LiquidationKeeper.updateIndex`. -/
def applyLiqEvent (s : LiqState) (e : LiqEvent) : LiqState :=
  if !e.hasArgs then s
  else
    match e.kind with
    | LiqEventKind.fundingRecomputed => { s with blockTipTimestamp := e.timestamp }
    | LiqEventKind.positionModified =>
      if e.margin = 0 then { s with positions := delKV s.positions e.account }
      else { s with positions := setKV s.positions e.account (positionOfEvent e) }
    | LiqEventKind.positionLiquidated => { s with positions := delKV s.positions e.account }
    | LiqEventKind.positionFlagged => { s with positions := delKV s.positions e.account }
    | LiqEventKind.other => s

/-- `LiquidationKeeper.updateIndex(events, block?, assetPrice?)`: the block
tip timestamp and asset price are refreshed from the optional arguments
first (JS truthiness on the optional parameters), then the events are
folded in order.  The `if (!events.length) return;` early exit coincides
with folding the empty list. -/
def updateIndexLiq (s : LiqState) (events : List LiqEvent)
    (block? : Option ℚ) (assetPrice? : Option ℚ) : LiqState :=
  let s₁ := { s with
    blockTipTimestamp := block?.getD s.blockTipTimestamp
    assetPrice := assetPrice?.getD s.assetPrice }
  events.foldl applyLiqEvent s₁

/-- `LiquidationKeeper.hydrateIndex(positions, block)`: a fresh map is built
from the snapshot; for each snapshot entry, the object spread
`{ ...position, ...this.positions[account] }` lets every field of an
existing in-memory record (all of whose fields are always present) override
the snapshot's, i.e. the merged record is the in-memory one when present. -/
def hydrateIndex (snapshot : List Position) (blockTimestamp : ℚ) (s : LiqState) : LiqState :=
  { s with
    positions := snapshot.foldl
      (fun m p => setKV m p.account ((getKV s.positions p.account).getD p)) []
    blockTipTimestamp := blockTimestamp }

/-! ## liquidationGroups -/

/-- Close-group ordering: ascending absolute distance of the liquidation
price to the current price; ties broken by descending leverage
(the JS comparator `(d1 - d2) || (p2.leverage - p1.leverage)`). -/
def closeLE (price : ℚ) (p q : Position) : Prop :=
  |p.liqPrice - price| < |q.liqPrice - price| ∨
    (|p.liqPrice - price| = |q.liqPrice - price| ∧ q.leverage ≤ p.leverage)

instance (price : ℚ) : DecidableRel (closeLE price) := fun _ _ => by
  unfold closeLE; infer_instance

/-- Unknown-group ordering: descending leverage. -/
def unknownLE (p q : Position) : Prop := q.leverage ≤ p.leverage

instance : DecidableRel unknownLE := fun _ _ => by
  unfold unknownLE; infer_instance

/-- Outdated-group ordering: ascending `liqPriceUpdatedTimestamp`. -/
def outdatedLE (p q : Position) : Prop :=
  p.liqPriceUpdatedTimestamp ≤ q.liqPriceUpdatedTimestamp

instance : DecidableRel outdatedLE := fun _ _ => by
  unfold outdatedLE; infer_instance

/-- `LiquidationKeeper.liquidationGroups(posArr, ...)` with its default
parameters `priceProximityThreshold = 0.05`, `maxFarPricesToUpdate = 1`,
`farPriceRecencyCutoff = 6 * 3600`.  Returns the triple
(close, unknown, truncated outdated).  JS `Array.sort` is stable;
`List.insertionSort` realises the same stable sort. -/
def liquidationGroups (s : LiqState) (posArr : List Position)
    (priceProximityThreshold : ℚ := 1 / 20)
    (maxFarPricesToUpdate : Nat := 1)
    (farPriceRecencyCutoff : ℚ := 6 * 3600) :
    List Position × List Position × List Position :=
  let knownLiqPrice := posArr.filter (fun p => decide (p.liqPrice ≠ -1))
  let unknownLiqPrice := posArr.filter (fun p => decide (p.liqPrice = -1))
  let liqPriceClose := knownLiqPrice.filter
    (fun p => decide (|p.liqPrice - s.assetPrice| / s.assetPrice ≤ priceProximityThreshold))
  let liqPriceFar := knownLiqPrice.filter
    (fun p => decide (|p.liqPrice - s.assetPrice| / s.assetPrice > priceProximityThreshold))
  let sortedClose := liqPriceClose.insertionSort (closeLE s.assetPrice)
  let sortedUnknown := unknownLiqPrice.insertionSort unknownLE
  let outdatedLiqPrices := liqPriceFar.filter
    (fun p => decide (p.liqPriceUpdatedTimestamp < s.blockTipTimestamp - farPriceRecencyCutoff))
  let sortedOutdated := outdatedLiqPrices.insertionSort outdatedLE
  (sortedClose, sortedUnknown, sortedOutdated.take maxFarPricesToUpdate)

/-! ## Chain actions and gas options -/

/-- Explicit gas overrides attached to a submission (`{ gasLimit, gasPrice }`).
A submission with `none` uses the provider defaults. -/
structure GasOpts where
  gasLimit : ℚ
  gasPrice : ℚ
  deriving DecidableEq, Repr

/-- The contract interactions a keeper routine performs, in program order.
Reads are `callStatic`/view calls; `submit…` are signed transactions. -/
inductive Action
  | readCanLiquidate (account : String)
  | readIsFlagged (account : String)
  | readLiquidationPrice (account : String)
  | readDelayedOrders (account : String)
  | dryRunFlagBatch (accounts : List String)
  | submitFlag (account : String) (gas : Option GasOpts)
  | submitLiquidate (account : String) (gas : Option GasOpts)
  | submitAggregate3 (accounts : List String) (gas : Option GasOpts)
  | submitExecuteDelayedOrder (account : String) (gas : Option GasOpts)
  deriving DecidableEq, Repr

/-- The gas options built by every source site that attaches them:
`gasLimit = wei(estimate).mul(1.2).toBN()` and
`gasPrice = (await provider.getGasPrice()).mul(2)`. -/
def mkGasOpts (estimate gasPrice : ℚ) : GasOpts :=
  { gasLimit := estimate * (6 / 5), gasPrice := gasPrice * 2 }

/-! ## LiquidationKeeper.liquidatePosition -/

/-- Chain responses consumed by one `liquidatePosition(account)` call. -/
structure LiqPosEnv where
  canLiquidate : Bool
  isFlagged : Bool
  liquidationPrice : ℚ
  flagEstimate : ℚ
  liqEstimate : ℚ
  gasPrice : ℚ
  flagTxOk : Bool
  liqTxOk : Bool

structure LiqPosResult where
  state : LiqState
  actions : List Action
  metrics : List MetricName
  deriving Repr

/-- The record update the refresh branch performs on a position:
`liqPrice` from the `liquidationPrice(account)` read, and
`liqPriceUpdatedTimestamp` stamped with the keeper's block tip. -/
def refreshPosition (p : Position) (liqPrice ts : ℚ) : Position :=
  { p with liqPrice := liqPrice, liqPriceUpdatedTimestamp := ts }

/-- `LiquidationKeeper.liquidatePosition(account)` (private helper).
Reads `canLiquidate` and `isFlagged`; if neither holds, refreshes
`liqPrice` from `liquidationPrice(account)` and stamps
`liqPriceUpdatedTimestamp := blockTipTimestamp` with no submission
(when the account is missing from the index this assignment raises a
TypeError that the outer catch turns into a `KEEPER_ERROR`); if flagged,
submits `liquidatePosition` with explicit gas options; otherwise submits
`flagPosition` with explicit gas options and, when that confirms, submits
`liquidatePosition` with no gas options.  `POSITION_LIQUIDATED` is counted
only after the liquidation transaction confirms; `withSigner` failures are
caught and only logged. -/
def liquidatePosition (s : LiqState) (account : String) (env : LiqPosEnv) : LiqPosResult :=
  let reads := [Action.readCanLiquidate account, Action.readIsFlagged account]
  if !env.canLiquidate && !env.isFlagged then
    match getKV s.positions account with
    | some p =>
      let posIdx := setKV s.positions account
        (refreshPosition p env.liquidationPrice s.blockTipTimestamp)
      { state := { s with positions := posIdx }
        actions := reads ++ [Action.readLiquidationPrice account]
        metrics := [] }
    | none =>
      { state := s
        actions := reads ++ [Action.readLiquidationPrice account]
        metrics := [MetricName.keeperError] }
  else if env.isFlagged then
    { state := s
      actions := reads ++
        [Action.submitLiquidate account (some (mkGasOpts env.liqEstimate env.gasPrice))]
      metrics := if env.liqTxOk then [MetricName.positionLiquidated] else [] }
  else
    if env.flagTxOk then
      { state := s
        actions := reads ++
          [Action.submitFlag account (some (mkGasOpts env.flagEstimate env.gasPrice)),
           Action.submitLiquidate account none]
        metrics := if env.liqTxOk then [MetricName.positionLiquidated] else [] }
    else
      { state := s
        actions := reads ++
          [Action.submitFlag account (some (mkGasOpts env.flagEstimate env.gasPrice))]
        metrics := [] }

/-! ## LiquidationKeeper.execute -/

/-- `lodash.chunk`: split a list into consecutive pages of `n` elements
(`n > 0`; the last page may be shorter). -/
def chunkList {α : Type} (n : Nat) : List α → List (List α)
  | [] => []
  | x :: xs => (x :: xs.take (n - 1)) :: chunkList n (xs.drop (n - 1))
termination_by l => l.length
decreasing_by
  simp only [List.length_drop]
  exact Nat.lt_succ_of_le (Nat.sub_le _ _)

/-- Chain responses consumed by one `LiquidationKeeper.execute()` tick:
the per-account outcome of the Multicall3 `aggregate3` dry run of
`flagPosition`, the gas estimate for the real `aggregate3`, and the chain
gas price. -/
structure LiqExecEnv where
  staticSuccess : String → Bool
  aggEstimate : ℚ
  gasPrice : ℚ

/-- `LiquidationKeeper.execute()`: takes the open positions (`|size| > 0`)
straight from the index, dry-runs `flagPosition` for each of them through
Multicall3 `aggregate3` in pages of 20 (`callStatic`, `allowFailure:
true`), keeps the positions whose dry run succeeded, and submits a single
`aggregate3` batch of `flagPosition` calls — capped at the first 20 — with
explicit gas options.  It neither consults `liquidationGroups` nor calls
`liquidatePosition`, and it does not modify the index. -/
def executeLiq (s : LiqState) (env : LiqExecEnv) : List Action :=
  let openPositions := (valuesKV s.positions).filter (fun p => decide (|p.size| > 0))
  if openPositions.isEmpty then []
  else
    let pages := chunkList 20 openPositions
    let dryRuns := pages.map (fun page => Action.dryRunFlagBatch (page.map (·.account)))
    let successfulPositions :=
      (pages.map (fun page => page.filter (fun p => env.staticSuccess p.account))).flatten
    if successfulPositions.isEmpty then dryRuns
    else
      dryRuns ++
        [Action.submitAggregate3 ((successfulPositions.take 20).map (·.account))
          (some (mkGasOpts env.aggEstimate env.gasPrice))]

/-! ## Delayed orders: index -/

structure DelayedOrder where
  account : String
  targetRoundId : Nat
  executableAtTime : Nat
  intentionTime : Nat
  executionFailures : Nat
  deriving DecidableEq, Repr

inductive DOEventKind
  | submitted
  | removed
  | other
  deriving DecidableEq, Repr

/-- One decoded contract event as seen by `DelayedOrdersKeeper.updateIndex`.
`hasArgs`/`isOffchain` model the `if (!args || args.isOffchain) continue;`
guard.  `intentionTime` is `none` when absent from the event args, in which
case the handler falls back to the event block's timestamp (`blockTs`,
which is 0 when the `getBlock` lookup fails). -/
structure DOEvent where
  kind : DOEventKind
  hasArgs : Bool
  isOffchain : Bool
  account : String
  targetRoundId : Nat
  executableAtTime : Nat
  intentionTime : Option Nat
  blockTs : Nat
  deriving DecidableEq, Repr

/-- The `DelayedOrder` record written by the `DelayedOrderSubmitted`
handler; `executionFailures` starts at 0. -/
def orderOfEvent (e : DOEvent) : DelayedOrder :=
  { account := e.account
    targetRoundId := e.targetRoundId
    executableAtTime := e.executableAtTime
    intentionTime := e.intentionTime.getD e.blockTs
    executionFailures := 0 }

abbrev OrdersIndex : Type := List (String × DelayedOrder)

/-- One step of the event loop in `DelayedOrdersKeeper.updateIndex`. -/
def applyDOEvent (idx : OrdersIndex) (e : DOEvent) : OrdersIndex :=
  if !e.hasArgs || e.isOffchain then idx
  else
    match e.kind with
    | DOEventKind.submitted => setKV idx e.account (orderOfEvent e)
    | DOEventKind.removed => delKV idx e.account
    | DOEventKind.other => idx

/-- `DelayedOrdersKeeper.updateIndex(events)`: fold the events in order
(the `if (!events.length) return;` early exit coincides with folding the
empty list). -/
def updateIndexDO (idx : OrdersIndex) (events : List DOEvent) : OrdersIndex :=
  events.foldl applyDOEvent idx

/-! ## Delayed orders: execution -/

/-- Chain responses consumed by one `executeOrder(account)` task:
the `sizeDelta` of the on-chain re-read `market.delayedOrders(account)`,
whether the `executeDelayedOrder` transaction path succeeds, and the gas
estimate (computed with the 1.2× multiplier but never attached to the
submission in this copy of the source). -/
structure OrderEnv where
  sizeDelta : ℚ
  txOk : Bool
  gasEstimate : ℚ

structure OrderStepResult where
  orders : OrdersIndex
  actions : List Action
  metrics : List MetricName

/-- `DelayedOrdersKeeper.executeOrder(account)` (per-order task, from the
gas-estimating copy of the file).  Missing entry: no-op.  Entry over the
failure budget (`executionFailures > maxExecAttempts`): evicted, nothing
submitted.  Otherwise the task re-reads `market.delayedOrders(account)`;
when `sizeDelta == 0` the entry is deleted and
`DELAYED_ORDER_ALREADY_EXECUTED` is counted (the surrounding try block then
also counts `DELAYED_ORDER_EXECUTED`, since the signer task returned
normally); otherwise `executeDelayedOrder(account)` is submitted with no
explicit gas options — on confirmation the entry is deleted and
`DELAYED_ORDER_EXECUTED` counted, on failure `executionFailures` is
incremented in place and `KEEPER_ERROR` counted. -/
def executeOrder (maxExecAttempts : Nat) (idx : OrdersIndex) (account : String)
    (env : OrderEnv) : OrderStepResult :=
  match getKV idx account with
  | none => { orders := idx, actions := [], metrics := [] }
  | some order =>
    if order.executionFailures > maxExecAttempts then
      { orders := delKV idx account, actions := [], metrics := [] }
    else if env.sizeDelta = 0 then
      { orders := delKV idx account
        actions := [Action.readDelayedOrders account]
        metrics := [MetricName.delayedOrderAlreadyExecuted, MetricName.delayedOrderExecuted] }
    else if env.txOk then
      { orders := delKV idx account
        actions := [Action.readDelayedOrders account,
                    Action.submitExecuteDelayedOrder account none]
        metrics := [MetricName.delayedOrderExecuted] }
    else
      { orders := setKV idx account
          { order with executionFailures := order.executionFailures + 1 }
        actions := [Action.readDelayedOrders account,
                    Action.submitExecuteDelayedOrder account none]
        metrics := [MetricName.keeperError] }

/-- The readiness filter of `DelayedOrdersKeeper.execute()`:
`currentRoundId.gte(targetRoundId) ||
 BigNumber.from(block.timestamp).gte(executableAtTime)`. -/
def executableOrders (idx : OrdersIndex) (currentRoundId blockTimestamp : Nat) :
    List DelayedOrder :=
  (valuesKV idx).filter
    (fun o => decide (o.targetRoundId ≤ currentRoundId) ||
              decide (o.executableAtTime ≤ blockTimestamp))

/-- Sequential run of the per-order tasks over the selected accounts,
threading the index and concatenating action/metric traces.
(`chunk(executableOrders, MAX_BATCH_SIZE)` + `Promise.all` dispatches the
same accounts in the same order; each task only touches its own account's
entry, so the batched concurrent run is observationally this fold.) -/
def runOrders (maxExecAttempts : Nat) (idx : OrdersIndex) (accounts : List String)
    (env : String → OrderEnv) : OrderStepResult :=
  accounts.foldl
    (fun acc a =>
      let r := executeOrder maxExecAttempts acc.orders a (env a)
      { orders := r.orders
        actions := acc.actions ++ r.actions
        metrics := acc.metrics ++ r.metrics })
    { orders := idx, actions := [], metrics := [] }

/-- `DelayedOrdersKeeper.execute()`: select the ready orders and run the
per-order tasks. -/
def executeDO (maxExecAttempts : Nat) (idx : OrdersIndex)
    (currentRoundId blockTimestamp : Nat) (env : String → OrderEnv) : OrderStepResult :=
  let ready := executableOrders idx currentRoundId blockTimestamp
  if (valuesKV idx).isEmpty then { orders := idx, actions := [], metrics := [] }
  else if ready.isEmpty then { orders := idx, actions := [], metrics := [] }
  else runOrders maxExecAttempts idx (ready.map (·.account)) env

/-- Iterate whole `execute()` ticks, returning the final index and the
per-tick action traces (tick 1 first). -/
def runTicks (maxExecAttempts : Nat) (currentRoundId blockTimestamp : Nat)
    (env : String → OrderEnv) : Nat → OrdersIndex → OrdersIndex × List (List Action)
  | 0, idx => (idx, [])
  | n + 1, idx =>
    let r := executeDO maxExecAttempts idx currentRoundId blockTimestamp env
    let rest := runTicks maxExecAttempts currentRoundId blockTimestamp env n r.orders
    (rest.1, r.actions :: rest.2)

/-- Is this action a submitted `executeDelayedOrder` transaction for the
given account (with any gas options)? -/
def isSubmitExecFor (account : String) : Action → Bool
  | Action.submitExecuteDelayedOrder a _ => a == account
  | _ => false

/-- Is this action any signed transaction submission? -/
def isSubmission : Action → Bool
  | Action.submitFlag _ _ => true
  | Action.submitLiquidate _ _ => true
  | Action.submitAggregate3 _ _ => true
  | Action.submitExecuteDelayedOrder _ _ => true
  | _ => false

/-! ## Effective events (the guard conditions of the two index handlers) -/

/-- The event is an effective `DelayedOrderSubmitted` for `account`:
args present, not off-chain, right kind, right account. -/
def effSubmitted (e : DOEvent) (account : String) : Prop :=
  e.hasArgs = true ∧ e.isOffchain = false ∧
    e.kind = DOEventKind.submitted ∧ e.account = account

instance (e : DOEvent) (a : String) : Decidable (effSubmitted e a) := by
  unfold effSubmitted; infer_instance

/-- The event is an effective `DelayedOrderRemoved` for `account`. -/
def effRemoved (e : DOEvent) (account : String) : Prop :=
  e.hasArgs = true ∧ e.isOffchain = false ∧
    e.kind = DOEventKind.removed ∧ e.account = account

instance (e : DOEvent) (a : String) : Decidable (effRemoved e a) := by
  unfold effRemoved; infer_instance

/-! ## Last-write summaries (used to reason about event-fold replays) -/

/-- The last write (if any) that a list of effects performs, scanning left
to right; `some w` means the final such effect writes `w`. -/
def lastEffect {E V : Type} (f : E → Option V) : List E → Option V
  | [] => none
  | e :: rest => ((lastEffect f rest).orElse (fun _ => f e))

/-- The write `applyDOEvent` performs at key `account`, as a function of
the event alone: `some (some o)` inserts `o`, `some none` deletes, `none`
leaves the key untouched. -/
def doWrite (account : String) (e : DOEvent) : Option (Option DelayedOrder) :=
  if !e.hasArgs || e.isOffchain then none
  else
    match e.kind with
    | DOEventKind.submitted =>
      if e.account = account then some (some (orderOfEvent e)) else none
    | DOEventKind.removed =>
      if e.account = account then some none else none
    | DOEventKind.other => none

/-- The write `applyLiqEvent` performs at key `account` of the positions
index, as a function of the event alone. -/
def liqWrite (account : String) (e : LiqEvent) : Option (Option Position) :=
  if !e.hasArgs then none
  else
    match e.kind with
    | LiqEventKind.positionModified =>
      if e.account = account then
        (if e.margin = 0 then some none else some (some (positionOfEvent e)))
      else none
    | LiqEventKind.positionLiquidated => if e.account = account then some none else none
    | LiqEventKind.positionFlagged => if e.account = account then some none else none
    | _ => none

/-- The write `applyLiqEvent` performs on `blockTipTimestamp`. -/
def liqTsWrite (e : LiqEvent) : Option ℚ :=
  if e.hasArgs && decide (e.kind = LiqEventKind.fundingRecomputed) then some e.timestamp
  else none

/-- The last snapshot entry carrying the given account (later entries win,
mirroring the `for (const position of positions)` insertion loop of
`hydrateIndex`). -/
def lastSnap (account : String) : List Position → Option Position
  | [] => none
  | p :: rest =>
    match lastSnap account rest with
    | some q => some q
    | none => if p.account = account then some p else none

/-! ## Concrete fixtures for the scenario claims -/

/-- Position `0xC` of spec scenario 4: liqPrice 9.6, leverage 3. -/
def posC : Position :=
  { id := 1, account := "0xC", size := 1, leverage := 3,
    liqPrice := 48 / 5, liqPriceUpdatedTimestamp := 0 }

/-- Position `0xD` of spec scenario 4: liqPrice 9.9, leverage 2. -/
def posD : Position :=
  { id := 2, account := "0xD", size := 1, leverage := 2,
    liqPrice := 99 / 10, liqPriceUpdatedTimestamp := 0 }

/-- Keeper state for spec scenario 4: `assetPrice = 10`. -/
def stateCD : LiqState :=
  { positions := [("0xC", posC), ("0xD", posD)], blockTipTimestamp := 0, assetPrice := 10 }

/-- An open position with unknown liquidation price (so any walk of the
liquidation groups would have to hand it to `liquidatePosition`). -/
def posB : Position :=
  { id := 3, account := "0xB", size := 1, leverage := 5,
    liqPrice := -1, liqPriceUpdatedTimestamp := 0 }

def liqStateB : LiqState :=
  { positions := [("0xB", posB)], blockTipTimestamp := 0, assetPrice := 10 }

def liqExecEnvB : LiqExecEnv :=
  { staticSuccess := fun _ => true, aggEstimate := 100, gasPrice := 1 }

/-- The delayed order of spec scenario 1: `targetRoundId = 100`,
`executableAtTime = 1000`, `intentionTime = 950`. -/
def orderA : DelayedOrder :=
  { account := "0xA", targetRoundId := 100, executableAtTime := 1000,
    intentionTime := 950, executionFailures := 0 }

def idxA : OrdersIndex := [("0xA", orderA)]

/-- Chain environment where the re-read order still exists and the
execution transaction confirms. -/
def envOk : String → OrderEnv :=
  fun _ => { sizeDelta := 1, txOk := true, gasEstimate := 100 }

/-- Chain environment where the re-read order still exists but the
execution transaction always reverts. -/
def envRevert : String → OrderEnv :=
  fun _ => { sizeDelta := 1, txOk := false, gasEstimate := 100 }

/-!
## Lemmas: association-list maps
-/

theorem getKV_setKV_self {α : Type} (m : List (String × α)) (k : String) (v : α) :
    getKV (setKV m k v) k = some v := by
  induction m with
  | nil => simp [setKV, getKV]
  | cons hd rest ih =>
    obtain ⟨k₀, v₀⟩ := hd
    by_cases h0 : k₀ = k
    · simp [setKV, getKV, h0]
    · simp [setKV, getKV, h0, ih]

theorem getKV_setKV_ne {α : Type} (m : List (String × α)) (k k' : String) (v : α)
    (h : k' ≠ k) : getKV (setKV m k v) k' = getKV m k' := by
  have h' : ¬ k = k' := fun he => h he.symm
  induction m with
  | nil => simp [setKV, getKV, h']
  | cons hd rest ih =>
    obtain ⟨k₀, v₀⟩ := hd
    by_cases h0 : k₀ = k
    · subst h0
      simp [setKV, getKV, h']
    · simp [setKV, getKV, h0, ih]

theorem getKV_delKV_self {α : Type} (m : List (String × α)) (k : String) :
    getKV (delKV m k) k = none := by
  induction m with
  | nil => simp [delKV, getKV]
  | cons hd rest ih =>
    obtain ⟨k₀, v₀⟩ := hd
    by_cases h0 : k₀ = k
    · simpa [delKV, List.filter_cons, h0] using ih
    · simpa [delKV, List.filter_cons, getKV, h0] using ih

theorem getKV_delKV_ne {α : Type} (m : List (String × α)) (k k' : String)
    (h : k' ≠ k) : getKV (delKV m k) k' = getKV m k' := by
  induction m with
  | nil => simp [delKV, getKV]
  | cons hd rest ih =>
    obtain ⟨k₀, v₀⟩ := hd
    by_cases h0 : k₀ = k
    · subst h0
      have h'' : ¬ k₀ = k' := fun he => h he.symm
      simpa [delKV, List.filter_cons, getKV, h''] using ih
    · by_cases h1 : k₀ = k'
      · simp [delKV, List.filter_cons, getKV, h0, h1, h]
      · simpa [delKV, List.filter_cons, getKV, h0, h1] using ih

/-!
## Lemmas: last-write summaries of event folds
-/

/-- A fold whose per-step effect on an observation `g` is fully described
by a per-event write `f` ends at the last write, or at the initial
observation when no event writes. -/
theorem lookup_foldl_of_write {σ E V : Type} (step : σ → E → σ) (g : σ → V)
    (f : E → Option V) (h : ∀ s e, g (step s e) = ((f e).elim (g s) id)) :
    ∀ (evs : List E) (s : σ), g (evs.foldl step s) = (lastEffect f evs).elim (g s) id := by
  intro evs
  induction evs with
  | nil => intro s; simp [lastEffect]
  | cons e rest ih =>
    intro s
    have : (e :: rest).foldl step s = rest.foldl step (step s e) := rfl
    rw [this, ih (step s e), h s e, lastEffect]
    cases hle : lastEffect f rest <;> cases hfe : f e <;>
      simp [Option.orElse, hle, hfe]

/-- Replaying the same effect-described fold twice is the same as once. -/
theorem foldl_of_write_idem {σ E V : Type} (step : σ → E → σ) (g : σ → V)
    (f : E → Option V) (h : ∀ s e, g (step s e) = ((f e).elim (g s) id))
    (evs : List E) (s : σ) :
    g (evs.foldl step (evs.foldl step s)) = g (evs.foldl step s) := by
  rw [lookup_foldl_of_write step g f h evs (evs.foldl step s),
    lookup_foldl_of_write step g f h evs s]
  cases lastEffect f evs <;> simp

/-!
## Lemmas: per-event effects of the two index handlers
-/

theorem getKV_applyDOEvent (idx : OrdersIndex) (e : DOEvent) (a : String) :
    getKV (applyDOEvent idx e) a = ((doWrite a e).elim (getKV idx a) id) := by
  unfold applyDOEvent doWrite
  by_cases hskip : (!e.hasArgs || e.isOffchain) = true
  · simp [hskip]
  · simp only [hskip, if_false, Bool.false_eq_true]
    cases e.kind with
    | submitted =>
      by_cases hacc : e.account = a
      · subst hacc; simp [getKV_setKV_self]
      · have hne : a ≠ e.account := fun he => hacc he.symm
        simp [hacc, getKV_setKV_ne _ _ _ _ hne]
    | removed =>
      by_cases hacc : e.account = a
      · subst hacc; simp [getKV_delKV_self]
      · have hne : a ≠ e.account := fun he => hacc he.symm
        simp [hacc, getKV_delKV_ne _ _ _ hne]
    | other => simp

theorem getKV_applyLiqEvent (s : LiqState) (e : LiqEvent) (a : String) :
    getKV (applyLiqEvent s e).positions a = ((liqWrite a e).elim (getKV s.positions a) id) := by
  unfold applyLiqEvent liqWrite
  by_cases hskip : (!e.hasArgs) = true
  · simp [hskip]
  · simp only [hskip, if_false, Bool.false_eq_true]
    cases e.kind with
    | fundingRecomputed => simp
    | positionModified =>
      by_cases hacc : e.account = a
      · subst hacc
        by_cases hm : e.margin = 0
        · simp [hm, getKV_delKV_self]
        · simp [hm, getKV_setKV_self]
      · have hne : a ≠ e.account := fun he => hacc he.symm
        by_cases hm : e.margin = 0
        · simp [hm, hacc, getKV_delKV_ne _ _ _ hne]
        · simp [hm, hacc, getKV_setKV_ne _ _ _ _ hne]
    | positionLiquidated =>
      by_cases hacc : e.account = a
      · subst hacc; simp [getKV_delKV_self]
      · have hne : a ≠ e.account := fun he => hacc he.symm
        simp [hacc, getKV_delKV_ne _ _ _ hne]
    | positionFlagged =>
      by_cases hacc : e.account = a
      · subst hacc; simp [getKV_delKV_self]
      · have hne : a ≠ e.account := fun he => hacc he.symm
        simp [hacc, getKV_delKV_ne _ _ _ hne]
    | other => simp

theorem blockTipTimestamp_applyLiqEvent (s : LiqState) (e : LiqEvent) :
    (applyLiqEvent s e).blockTipTimestamp = ((liqTsWrite e).elim s.blockTipTimestamp id) := by
  unfold applyLiqEvent liqTsWrite
  cases harg : e.hasArgs with
  | false => simp [harg]
  | true =>
    cases e.kind with
    | fundingRecomputed => simp [harg]
    | positionModified =>
      by_cases hm : e.margin = 0 <;> simp [harg, hm]
    | positionLiquidated => simp [harg]
    | positionFlagged => simp [harg]
    | other => simp [harg]

theorem assetPrice_applyLiqEvent (s : LiqState) (e : LiqEvent) :
    (applyLiqEvent s e).assetPrice = s.assetPrice := by
  unfold applyLiqEvent
  by_cases hskip : (!e.hasArgs) = true
  · simp [hskip]
  · simp only [hskip, if_false, Bool.false_eq_true]
    cases e.kind with
    | fundingRecomputed => simp
    | positionModified => by_cases hm : e.margin = 0 <;> simp [hm]
    | positionLiquidated => simp
    | positionFlagged => simp
    | other => simp

theorem assetPrice_foldl_applyLiqEvent (evs : List LiqEvent) :
    ∀ s : LiqState, (evs.foldl applyLiqEvent s).assetPrice = s.assetPrice := by
  induction evs with
  | nil => intro s; rfl
  | cons e rest ih =>
    intro s
    have : (e :: rest).foldl applyLiqEvent s = rest.foldl applyLiqEvent (applyLiqEvent s e) := rfl
    rw [this, ih, assetPrice_applyLiqEvent]

/-!
## Lemmas: hydrateIndex fold
-/

theorem lastSnap_account (a : String) :
    ∀ snapshot : List Position, ∀ q, lastSnap a snapshot = some q → q.account = a := by
  intro snapshot
  induction snapshot with
  | nil => intro q h; simp [lastSnap] at h
  | cons p rest ih =>
    intro q h
    rw [show lastSnap a (p :: rest)
        = (match lastSnap a rest with
           | some q => some q
           | none => if p.account = a then some p else none) from rfl] at h
    cases hr : lastSnap a rest with
    | some q' =>
      rw [hr] at h
      injection h with h
      exact h ▸ ih q' hr
    | none =>
      rw [hr] at h
      by_cases hp : p.account = a
      · simp [hp] at h
        exact h ▸ hp
      · simp [hp] at h

theorem lastSnap_isSome_iff (a : String) :
    ∀ snapshot : List Position,
      (lastSnap a snapshot).isSome = true ↔ a ∈ snapshot.map (·.account) := by
  intro snapshot
  induction snapshot with
  | nil => simp [lastSnap]
  | cons p rest ih =>
    simp only [List.map_cons, List.mem_cons]
    rw [show lastSnap a (p :: rest)
        = (match lastSnap a rest with
           | some q => some q
           | none => if p.account = a then some p else none) from rfl]
    cases hr : lastSnap a rest with
    | some q =>
      have hmem : a ∈ rest.map (·.account) := ih.1 (by simp [hr])
      simp [hmem]
    | none =>
      have hnmem : ¬ a ∈ rest.map (·.account) := by
        intro hm
        have := ih.2 hm
        rw [hr] at this
        simp at this
      by_cases hp : p.account = a
      · simp [hp]
      · have hne : ¬ a = p.account := fun he => hp he.symm
        simp [hp, hne, hnmem]

theorem getKV_snapshot_foldl (f : Position → Position) (a : String) :
    ∀ (snapshot : List Position) (m : List (String × Position)),
      getKV (snapshot.foldl (fun m p => setKV m p.account (f p)) m) a
        = ((lastSnap a snapshot).elim (getKV m a) (fun q => some (f q))) := by
  intro snapshot
  induction snapshot with
  | nil => intro m; simp [lastSnap]
  | cons p rest ih =>
    intro m
    have hstep : (p :: rest).foldl (fun m p => setKV m p.account (f p)) m
        = rest.foldl (fun m p => setKV m p.account (f p)) (setKV m p.account (f p)) := rfl
    rw [hstep, ih]
    rw [show lastSnap a (p :: rest)
        = (match lastSnap a rest with
           | some q => some q
           | none => if p.account = a then some p else none) from rfl]
    cases hr : lastSnap a rest with
    | some q => simp
    | none =>
      by_cases hp : p.account = a
      · subst hp
        simp [getKV_setKV_self]
      · have hne : a ≠ p.account := fun he => hp he.symm
        simp [hp, getKV_setKV_ne _ _ _ _ hne]

/-!
## Claim theorems
-/

/-- C9: `Metrics.count` with `increment = true` adds exactly one to the
named counter; with `increment = false` it first decrements and then
increments, leaving the counter's net value unchanged; no call to `count`
ever decreases any counter's net value, and counters other than the named
one are untouched. -/
theorem metrics_count_spec (s : MetricBank) (name : MetricName) :
    countMetric name true s name = s name + 1 ∧
    countMetric name false s = incMetric name (decMetric name s) ∧
    countMetric name false s name = s name ∧
    (∀ (n : MetricName) (b : Bool), s n ≤ countMetric name b s n) ∧
    (∀ (n : MetricName) (b : Bool), n ≠ name → countMetric name b s n = s n) := by
  refine ⟨?_, rfl, ?_, ?_, ?_⟩
  · simp [countMetric, incMetric]
  · simp [countMetric, incMetric, decMetric]
  · intro n b
    by_cases hn : n = name <;> cases b <;>
      simp [countMetric, incMetric, decMetric, hn]
  · intro n b hn
    cases b <;> simp [countMetric, incMetric, decMetric, hn]

/-- C9 witness: counting `KeeperError` leaves the `PositionLiquidated`
counter of the zero bank untouched. -/
theorem metrics_count_spec_witness :
    countMetric MetricName.keeperError true zeroBank MetricName.positionLiquidated
      = zeroBank MetricName.positionLiquidated :=
  (metrics_count_spec zeroBank MetricName.keeperError).2.2.2.2
    MetricName.positionLiquidated true (by decide)

/-- C10: after `hydrateIndex(positions, block)` the key set of the
position index is exactly the accounts of the snapshot; for an account
present in both the snapshot and the prior in-memory index, every field of
the in-memory record overrides the snapshot's (the stored record is the
in-memory one); and `blockTipTimestamp` is set to the block's timestamp. -/
theorem hydrateIndex_spec (s : LiqState) (snapshot : List Position) (blockTs : ℚ) :
    (∀ a, (getKV (hydrateIndex snapshot blockTs s).positions a).isSome = true
        ↔ a ∈ snapshot.map (·.account)) ∧
    (∀ a p, a ∈ snapshot.map (·.account) → getKV s.positions a = some p →
        getKV (hydrateIndex snapshot blockTs s).positions a = some p) ∧
    (hydrateIndex snapshot blockTs s).blockTipTimestamp = blockTs := by
  refine ⟨?_, ?_, rfl⟩
  · intro a
    unfold hydrateIndex
    rw [getKV_snapshot_foldl]
    rw [← lastSnap_isSome_iff]
    cases lastSnap a snapshot <;> simp [getKV]
  · intro a p hmem hp
    unfold hydrateIndex
    rw [getKV_snapshot_foldl]
    have hsome : (lastSnap a snapshot).isSome = true := (lastSnap_isSome_iff a snapshot).2 hmem
    cases hq : lastSnap a snapshot with
    | none => rw [hq] at hsome; simp at hsome
    | some q =>
      have hacc : q.account = a := lastSnap_account a snapshot q hq
      simp [hacc, hp]

/-- C10 witness: hydrating a snapshot entry for `0xB` on top of an
in-memory index already holding `posB` keeps the in-memory record. -/
theorem hydrateIndex_spec_witness :
    getKV (hydrateIndex [{ posB with leverage := 7 }] 5 liqStateB).positions "0xB" = some posB := by
  refine (hydrateIndex_spec liqStateB [{ posB with leverage := 7 }] 5).2.1 "0xB" posB ?_ ?_
  · simp [posB]
  · rfl

/-!
## Lemmas towards the replay claims (C6, C7)
-/

theorem updateIndexDO_concat (idx : OrdersIndex) (l : List DOEvent) (e : DOEvent) :
    updateIndexDO idx (l ++ [e]) = applyDOEvent (updateIndexDO idx l) e := by
  simp [updateIndexDO, List.foldl_append]

theorem effSubmitted_not_effRemoved {e : DOEvent} {a : String}
    (hs : effSubmitted e a) (hr : effRemoved e a) : False := by
  obtain ⟨_, _, hk, _⟩ := hs
  obtain ⟨_, _, hk', _⟩ := hr
  rw [hk] at hk'
  cases hk'

theorem getKV_applyDOEvent_submitted {idx : OrdersIndex} {e : DOEvent} {a : String}
    (hs : effSubmitted e a) :
    getKV (applyDOEvent idx e) a = some (orderOfEvent e) := by
  obtain ⟨h1, h2, hk, hacc⟩ := hs
  rw [getKV_applyDOEvent]
  unfold doWrite
  simp [h1, h2, hk, hacc]

theorem getKV_applyDOEvent_removed {idx : OrdersIndex} {e : DOEvent} {a : String}
    (hr : effRemoved e a) :
    getKV (applyDOEvent idx e) a = none := by
  obtain ⟨h1, h2, hk, hacc⟩ := hr
  rw [getKV_applyDOEvent]
  unfold doWrite
  simp [h1, h2, hk, hacc]

theorem getKV_applyDOEvent_neutral {idx : OrdersIndex} {e : DOEvent} {a : String}
    (hs : ¬ effSubmitted e a) (hr : ¬ effRemoved e a) :
    getKV (applyDOEvent idx e) a = getKV idx a := by
  rw [getKV_applyDOEvent]
  have hnone : doWrite a e = none := by
    unfold doWrite
    cases h1 : e.hasArgs with
    | false => simp
    | true =>
      cases h2 : e.isOffchain with
      | true => simp
      | false =>
        cases hk : e.kind with
        | submitted =>
          by_cases hacc : e.account = a
          · exact absurd ⟨h1, h2, hk, hacc⟩ hs
          · simp [hacc]
        | removed =>
          by_cases hacc : e.account = a
          · exact absurd ⟨h1, h2, hk, hacc⟩ hr
          · simp [hacc]
        | other => simp
  rw [hnone]
  rfl

theorem append_singleton_cases {α : Type} {l₁ l₂ evs : List α} {x e : α}
    (h : l₁ ++ x :: l₂ = evs ++ [e]) :
    (l₁ = evs ∧ x = e ∧ l₂ = []) ∨ (∃ l₂', l₂ = l₂' ++ [e] ∧ evs = l₁ ++ x :: l₂') := by
  rcases List.eq_nil_or_concat l₂ with h2 | ⟨l₂', b, h2⟩
  · subst h2
    have hinj := List.append_inj' h (by rfl)
    left
    exact ⟨hinj.1, by injection hinj.2, rfl⟩
  · rw [List.concat_eq_append] at h2
    subst h2
    have h' : (l₁ ++ x :: l₂') ++ [b] = evs ++ [e] := by
      simpa using h
    have hinj := List.append_inj' h' (by rfl)
    have hbe : b = e := by injection hinj.2
    subst hbe
    right
    exact ⟨l₂', rfl, hinj.1.symm⟩

theorem updateIndexLiq_positions_lookup (s : LiqState) (evs : List LiqEvent)
    (block? assetPrice? : Option ℚ) (a : String) :
    getKV (updateIndexLiq s evs block? assetPrice?).positions a
      = ((lastEffect (liqWrite a) evs).elim (getKV s.positions a) id) :=
  lookup_foldl_of_write applyLiqEvent (fun st => getKV st.positions a) (liqWrite a)
    (fun st e => getKV_applyLiqEvent st e a) evs _

theorem updateIndexLiq_blockTipTimestamp (s : LiqState) (evs : List LiqEvent)
    (block? assetPrice? : Option ℚ) :
    (updateIndexLiq s evs block? assetPrice?).blockTipTimestamp
      = ((lastEffect liqTsWrite evs).elim (block?.getD s.blockTipTimestamp) id) :=
  lookup_foldl_of_write applyLiqEvent (fun st => st.blockTipTimestamp) liqTsWrite
    blockTipTimestamp_applyLiqEvent evs _

theorem updateIndexLiq_assetPrice (s : LiqState) (evs : List LiqEvent)
    (block? assetPrice? : Option ℚ) :
    (updateIndexLiq s evs block? assetPrice?).assetPrice
      = assetPrice?.getD s.assetPrice :=
  assetPrice_foldl_applyLiqEvent evs _

/-- C6: the delayed-order index built by replaying an event list from the
empty index contains an account exactly when the list contains an effective
`DelayedOrderSubmitted` for that account (args present, not off-chain) that
is not followed by a later effective `DelayedOrderRemoved` for the same
account. -/
theorem delayedOrder_index_membership (evs : List DOEvent) (a : String) :
    (getKV (updateIndexDO [] evs) a).isSome = true ↔
      ∃ l₁ e l₂, evs = l₁ ++ e :: l₂ ∧ effSubmitted e a ∧ ∀ e' ∈ l₂, ¬ effRemoved e' a := by
  induction evs using List.reverseRecOn with
  | nil =>
    constructor
    · intro h
      simp [updateIndexDO, getKV] at h
    · rintro ⟨l₁, e, l₂, hdec, -, -⟩
      exact absurd hdec (by simp)
  | append_singleton l e ih =>
    by_cases hs : effSubmitted e a
    · rw [updateIndexDO_concat, getKV_applyDOEvent_submitted hs]
      constructor
      · intro _
        exact ⟨l, e, [], rfl, hs, by simp⟩
      · intro _
        rfl
    · by_cases hr : effRemoved e a
      · rw [updateIndexDO_concat, getKV_applyDOEvent_removed hr]
        constructor
        · intro h
          cases h
        · rintro ⟨l₁, x, l₂, hdec, hxs, hnone⟩
          rcases append_singleton_cases hdec.symm with ⟨-, rfl, rfl⟩ | ⟨l₂', rfl, -⟩
          · exact absurd (effSubmitted_not_effRemoved hxs hr) not_false
          · exact absurd hr (hnone e (by simp))
      · rw [updateIndexDO_concat, getKV_applyDOEvent_neutral hs hr, ih]
        constructor
        · rintro ⟨l₁, x, l₂, rfl, hxs, hnone⟩
          refine ⟨l₁, x, l₂ ++ [e], by simp, hxs, ?_⟩
          intro e' he'
          rcases List.mem_append.1 he' with h | h
          · exact hnone e' h
          · rw [List.mem_singleton.1 h]
            exact hr
        · rintro ⟨l₁, x, l₂, hdec, hxs, hnone⟩
          rcases append_singleton_cases hdec.symm with ⟨-, rfl, rfl⟩ | ⟨l₂', rfl, h3⟩
          · exact absurd hxs hs
          · exact ⟨l₁, x, l₂', h3, hxs, fun e' he' => hnone e' (List.mem_append.2 (Or.inl he'))⟩

/-- C7: replaying the same event list twice in direct succession through
`updateIndex` leaves both keepers' indices exactly as after one replay —
for the `DelayedOrdersKeeper` order index, and for the
`LiquidationKeeper` position index together with `blockTipTimestamp`
(which takes the last `FundingRecomputed` value) and `assetPrice`. -/
theorem updateIndex_replay_idempotent :
    (∀ (idx : OrdersIndex) (evs : List DOEvent) (a : String),
      getKV (updateIndexDO (updateIndexDO idx evs) evs) a
        = getKV (updateIndexDO idx evs) a) ∧
    (∀ (s : LiqState) (evs : List LiqEvent) (block? assetPrice? : Option ℚ),
      (∀ a, getKV (updateIndexLiq (updateIndexLiq s evs block? assetPrice?)
              evs block? assetPrice?).positions a
        = getKV (updateIndexLiq s evs block? assetPrice?).positions a) ∧
      (updateIndexLiq (updateIndexLiq s evs block? assetPrice?)
          evs block? assetPrice?).blockTipTimestamp
        = (updateIndexLiq s evs block? assetPrice?).blockTipTimestamp ∧
      (updateIndexLiq (updateIndexLiq s evs block? assetPrice?)
          evs block? assetPrice?).assetPrice
        = (updateIndexLiq s evs block? assetPrice?).assetPrice) := by
  constructor
  · intro idx evs a
    exact foldl_of_write_idem applyDOEvent (fun i => getKV i a) (doWrite a)
      (fun i e => getKV_applyDOEvent i e a) evs idx
  · intro s evs b p
    refine ⟨?_, ?_, ?_⟩
    · intro a
      rw [updateIndexLiq_positions_lookup (updateIndexLiq s evs b p) evs b p a,
        updateIndexLiq_positions_lookup s evs b p a]
      cases lastEffect (liqWrite a) evs <;> simp
    · rw [updateIndexLiq_blockTipTimestamp (updateIndexLiq s evs b p) evs b p,
        updateIndexLiq_blockTipTimestamp s evs b p]
      cases lastEffect liqTsWrite evs with
      | some t => simp
      | none => cases b <;> simp
    · rw [updateIndexLiq_assetPrice (updateIndexLiq s evs b p) evs b p,
        updateIndexLiq_assetPrice s evs b p]
      cases p <;> simp

/-- C4: `execute()` of the `DelayedOrdersKeeper` selects exactly the
indexed orders with `currentRoundId ≥ targetRoundId` or latest block
timestamp `≥ executableAtTime`; for the scenario order
(`targetRoundId = 100`, `executableAtTime = 1000`) with
`currentRoundId = 101` and `block.timestamp = 900`, one tick submits
`executeDelayedOrder("0xA")` exactly once and removes the entry on
success. -/
theorem executeDO_selection_spec :
    (∀ (idx : OrdersIndex) (currentRoundId blockTimestamp : Nat) (o : DelayedOrder),
      o ∈ executableOrders idx currentRoundId blockTimestamp ↔
        o ∈ valuesKV idx ∧
          (o.targetRoundId ≤ currentRoundId ∨ o.executableAtTime ≤ blockTimestamp)) ∧
    (executeDO 10 idxA 101 900 envOk).actions.countP
        (fun act => isSubmitExecFor "0xA" act) = 1 ∧
    getKV (executeDO 10 idxA 101 900 envOk).orders "0xA" = none := by
  refine ⟨?_, by decide, by decide⟩
  intro idx cr ts o
  simp [executableOrders, List.mem_filter]

/-- C8: when the per-order task's on-chain re-read of
`market.delayedOrders(account)` returns `sizeDelta == 0`, the task deletes
the account from the index, counts `DelayedOrderAlreadyExecuted`, and
returns — it submits no transaction and increments no entry's
`executionFailures` (no `KeeperError`, and the only index change is the
deletion). -/
theorem executeOrder_stale_spec (maxExecAttempts : Nat) (idx : OrdersIndex)
    (account : String) (env : OrderEnv) (o : DelayedOrder)
    (ho : getKV idx account = some o)
    (hf : o.executionFailures ≤ maxExecAttempts)
    (hs : env.sizeDelta = 0) :
    (executeOrder maxExecAttempts idx account env).orders = delKV idx account ∧
    (executeOrder maxExecAttempts idx account env).actions
      = [Action.readDelayedOrders account] ∧
    MetricName.delayedOrderAlreadyExecuted
      ∈ (executeOrder maxExecAttempts idx account env).metrics ∧
    MetricName.keeperError ∉ (executeOrder maxExecAttempts idx account env).metrics ∧
    (∀ g, Action.submitExecuteDelayedOrder account g
      ∉ (executeOrder maxExecAttempts idx account env).actions) := by
  have hres : executeOrder maxExecAttempts idx account env =
      { orders := delKV idx account
        actions := [Action.readDelayedOrders account]
        metrics := [MetricName.delayedOrderAlreadyExecuted,
                    MetricName.delayedOrderExecuted] } := by
    unfold executeOrder
    rw [ho]
    simp [Nat.not_lt.2 hf, hs]
  rw [hres]
  refine ⟨rfl, rfl, by simp, by simp, ?_⟩
  intro g
  simp

/-- C8 witness: the stale-order path at a concrete index and environment. -/
theorem executeOrder_stale_spec_witness :
    (executeOrder 10 idxA "0xA"
        { sizeDelta := 0, txOk := true, gasEstimate := 100 }).actions
      = [Action.readDelayedOrders "0xA"] :=
  (executeOrder_stale_spec 10 idxA "0xA"
    { sizeDelta := 0, txOk := true, gasEstimate := 100 } orderA rfl (by decide) rfl).2.1

/-- C2 counterexample: in a run where the order exists on-chain and the
transaction succeeds, the per-order task submits `executeDelayedOrder`
with no gas options at all (the 1.2× limit is computed but never
attached, and no gas price is fetched), refuting the claim that every
keeper submission carries `gasLimit = 1.2 · estimateGas` and
`gasPrice = 2 · gasPrice`. -/
theorem gas_options_counterexample :
    (executeOrder 10 idxA "0xA" (envOk "0xA")).actions
      = [Action.readDelayedOrders "0xA",
         Action.submitExecuteDelayedOrder "0xA" none] := by
  decide

/-- C2 (amended): the `flagPosition` submission, the stand-alone
`liquidatePosition` submission (already-flagged case) and the `aggregate3`
submission carry `gasLimit = 1.2 · estimateGas` and
`gasPrice = 2 · gasPrice`; the `executeDelayedOrder` submission and the
`liquidatePosition` submitted immediately after a successful
`flagPosition` carry no explicit gas options. -/
theorem gas_options_spec :
    (∀ (s : LiqState) (a : String) (env : LiqPosEnv), env.isFlagged = true →
      (liquidatePosition s a env).actions
        = [Action.readCanLiquidate a, Action.readIsFlagged a,
           Action.submitLiquidate a (some (mkGasOpts env.liqEstimate env.gasPrice))]) ∧
    (∀ (s : LiqState) (a : String) (env : LiqPosEnv),
      env.canLiquidate = true → env.isFlagged = false → env.flagTxOk = true →
      (liquidatePosition s a env).actions
        = [Action.readCanLiquidate a, Action.readIsFlagged a,
           Action.submitFlag a (some (mkGasOpts env.flagEstimate env.gasPrice)),
           Action.submitLiquidate a none]) ∧
    (∀ (s : LiqState) (a : String) (env : LiqPosEnv),
      env.canLiquidate = true → env.isFlagged = false → env.flagTxOk = false →
      (liquidatePosition s a env).actions
        = [Action.readCanLiquidate a, Action.readIsFlagged a,
           Action.submitFlag a (some (mkGasOpts env.flagEstimate env.gasPrice))]) ∧
    (∀ (s : LiqState) (env : LiqExecEnv) (accounts : List String) (gas : Option GasOpts),
      Action.submitAggregate3 accounts gas ∈ executeLiq s env →
      gas = some (mkGasOpts env.aggEstimate env.gasPrice)) ∧
    (∀ (maxExecAttempts : Nat) (idx : OrdersIndex) (a acc : String) (env : OrderEnv)
        (gas : Option GasOpts),
      Action.submitExecuteDelayedOrder acc gas
          ∈ (executeOrder maxExecAttempts idx a env).actions →
      gas = none) := by
  refine ⟨?_, ?_, ?_, ?_, ?_⟩
  · intro s a env hflag
    unfold liquidatePosition
    simp [hflag]
  · intro s a env hcan hflag hok
    unfold liquidatePosition
    simp [hcan, hflag, hok]
  · intro s a env hcan hflag hok
    unfold liquidatePosition
    simp [hcan, hflag, hok]
  · intro s env accounts gas hmem
    simp only [executeLiq] at hmem
    split_ifs at hmem with h1 h2
    · simp at hmem
    · obtain ⟨page, -, heq⟩ := List.mem_map.1 hmem
      cases heq
    · rcases List.mem_append.1 hmem with h | h
      · obtain ⟨page, -, heq⟩ := List.mem_map.1 h
        cases heq
      · rw [List.mem_singleton] at h
        injection h.symm with h₁ h₂
        exact h₂.symm
  · intro maxA idx a acc env gas hmem
    unfold executeOrder at hmem
    cases hidx : getKV idx a with
    | none => rw [hidx] at hmem; simp at hmem
    | some o =>
      rw [hidx] at hmem
      by_cases hb : o.executionFailures > maxA
      · simp [hb] at hmem
      · by_cases h1 : env.sizeDelta = 0
        · simp [hb, h1] at hmem
        · by_cases h2 : env.txOk
          · simp [hb, h1, h2] at hmem
            exact hmem.2
          · simp [hb, h1, h2] at hmem
            exact hmem.2

/-- C2 witness: the already-flagged branch of `liquidatePosition` at a
concrete environment attaches the 1.2× limit and doubled gas price. -/
theorem gas_options_spec_witness :
    (liquidatePosition liqStateB "0xB"
        { canLiquidate := true, isFlagged := true, liquidationPrice := 9,
          flagEstimate := 50, liqEstimate := 80, gasPrice := 3,
          flagTxOk := true, liqTxOk := true }).actions
      = [Action.readCanLiquidate "0xB", Action.readIsFlagged "0xB",
         Action.submitLiquidate "0xB" (some (mkGasOpts 80 3))] :=
  gas_options_spec.1 liqStateB "0xB"
    { canLiquidate := true, isFlagged := true, liquidationPrice := 9,
      flagEstimate := 50, liqEstimate := 80, gasPrice := 3,
      flagTxOk := true, liqTxOk := true } rfl

/-- C3 counterexample: with `maxExecAttempts = 10` and
`executeDelayedOrder` reverting on every tick, the 11th tick still
submits a transaction (the 11th revert) and the entry survives the 11th
tick with `executionFailures = 11` — it is not removed on the 11th
tick as claimed. -/
theorem maxAttempts_counterexample :
    (runTicks 10 101 900 envRevert 11 idxA).2
      = List.replicate 11 [Action.readDelayedOrders "0xA",
          Action.submitExecuteDelayedOrder "0xA" none] ∧
    (runTicks 10 101 900 envRevert 11 idxA).1
      = [("0xA", { account := "0xA", targetRoundId := 100, executableAtTime := 1000,
                   intentionTime := 950, executionFailures := 11 })] :=
  ⟨by decide, by decide⟩

/-- C3 (amended): an entry's `executionFailures` never decreases across
per-order tasks; the entry is evicted — with no transaction — at the
start of the first task that finds `executionFailures > maxExecAttempts`,
i.e. on the tick after the budget is exceeded; concretely with
`maxExecAttempts = 10` and 11 forced reverts on ticks 1–11, the 12th tick
removes the entry and sends no further transaction. -/
theorem executionFailures_monotone_eviction :
    (∀ (maxExecAttempts : Nat) (idx : OrdersIndex) (a : String) (env : OrderEnv)
        (o o' : DelayedOrder),
      getKV idx a = some o →
      getKV (executeOrder maxExecAttempts idx a env).orders a = some o' →
      o.executionFailures ≤ o'.executionFailures) ∧
    (∀ (maxExecAttempts : Nat) (idx : OrdersIndex) (a : String) (env : OrderEnv)
        (o : DelayedOrder),
      getKV idx a = some o → o.executionFailures > maxExecAttempts →
      (executeOrder maxExecAttempts idx a env).orders = delKV idx a ∧
      (executeOrder maxExecAttempts idx a env).actions = []) ∧
    (runTicks 10 101 900 envRevert 12 idxA).1 = [] ∧
    (runTicks 10 101 900 envRevert 12 idxA).2
      = List.replicate 11 [Action.readDelayedOrders "0xA",
          Action.submitExecuteDelayedOrder "0xA" none] ++ [[]] := by
  refine ⟨?_, ?_, by decide, by decide⟩
  · intro maxA idx a env o o' ho ho'
    unfold executeOrder at ho'
    rw [ho] at ho'
    by_cases hb : o.executionFailures > maxA
    · simp [hb, getKV_delKV_self] at ho'
    · by_cases h1 : env.sizeDelta = 0
      · simp [hb, h1, getKV_delKV_self] at ho'
      · by_cases h2 : env.txOk
        · simp [hb, h1, h2, getKV_delKV_self] at ho'
        · simp [hb, h1, h2, getKV_setKV_self] at ho'
          rw [← ho']
          exact Nat.le_succ _
  · intro maxA idx a env o ho hgt
    have hres : executeOrder maxA idx a env =
        { orders := delKV idx a, actions := [], metrics := [] } := by
      unfold executeOrder
      rw [ho]
      simp [hgt]
    rw [hres]
    exact ⟨rfl, rfl⟩

/-- C3 witness: the eviction rule applied to a concrete over-budget
entry. -/
theorem executionFailures_monotone_eviction_witness :
    (executeOrder 10 [("0xA", { orderA with executionFailures := 11 })] "0xA"
        (envRevert "0xA")).orders
      = delKV [("0xA", { orderA with executionFailures := 11 })] "0xA" :=
  (executionFailures_monotone_eviction.2.1 10
    [("0xA", { orderA with executionFailures := 11 })] "0xA" (envRevert "0xA")
    { orderA with executionFailures := 11 } rfl (by decide)).1

/-!
## Lemmas: close-group ordering and Multicall pagination
-/

theorem closeLE_total (price : ℚ) : ∀ p q, closeLE price p q ∨ closeLE price q p := by
  intro p q
  unfold closeLE
  rcases lt_trichotomy |p.liqPrice - price| |q.liqPrice - price| with h | h | h
  · exact Or.inl (Or.inl h)
  · rcases le_total q.leverage p.leverage with hl | hl
    · exact Or.inl (Or.inr ⟨h, hl⟩)
    · exact Or.inr (Or.inr ⟨h.symm, hl⟩)
  · exact Or.inr (Or.inl h)

theorem closeLE_trans (price : ℚ) :
    ∀ p q r, closeLE price p q → closeLE price q r → closeLE price p r := by
  intro p q r h1 h2
  unfold closeLE at h1 h2 ⊢
  rcases h1 with h1 | ⟨h1e, h1l⟩ <;> rcases h2 with h2 | ⟨h2e, h2l⟩
  · exact Or.inl (h1.trans h2)
  · exact Or.inl (by linarith)
  · exact Or.inl (by linarith)
  · exact Or.inr ⟨h1e.trans h2e, h2l.trans h1l⟩

theorem chunkList_filter_flatten {α : Type} (n : Nat) (f : α → Bool) :
    ∀ l : List α, ((chunkList n l).map (fun page => page.filter f)).flatten = l.filter f
  | [] => by simp [chunkList]
  | x :: xs => by
    rw [chunkList]
    simp only [List.map_cons, List.flatten_cons]
    rw [chunkList_filter_flatten n f (xs.drop (n - 1)), ← List.filter_append]
    congr 1
    exact congrArg (x :: ·) (List.take_append_drop _ xs)
termination_by l => l.length
decreasing_by
  simp only [List.length_drop]
  exact Nat.lt_succ_of_le (Nat.sub_le _ _)

/-- C5: `liquidationGroups` (with its default 0.05 threshold) puts a
position with known liquidation price into the close group exactly when
`|liqPrice − assetPrice| / assetPrice ≤ 0.05`; the close group is sorted
ascending by absolute distance of the liquidation price to the current
price with ties broken by descending leverage; and for positions `0xC`
(liqPrice 9.6, leverage 3) and `0xD` (liqPrice 9.9, leverage 2) at
`assetPrice = 10` the candidate order is `[0xD, 0xC]`. -/
theorem liquidationGroups_close_spec :
    (∀ (s : LiqState) (posArr : List Position) (p : Position),
      p ∈ (liquidationGroups s posArr).1 ↔
        p ∈ posArr ∧ p.liqPrice ≠ -1 ∧
          |p.liqPrice - s.assetPrice| / s.assetPrice ≤ 1 / 20) ∧
    (∀ (s : LiqState) (posArr : List Position),
      List.Sorted (closeLE s.assetPrice) (liquidationGroups s posArr).1) ∧
    (liquidationGroups stateCD [posC, posD]).1 = [posD, posC] := by
  have hfst : ∀ (s : LiqState) (posArr : List Position),
      (liquidationGroups s posArr).1
        = List.insertionSort (closeLE s.assetPrice)
            ((posArr.filter (fun p => decide (p.liqPrice ≠ -1))).filter
              (fun p => decide (|p.liqPrice - s.assetPrice| / s.assetPrice ≤ 1 / 20))) :=
    fun s posArr => rfl
  refine ⟨?_, ?_, ?_⟩
  · intro s posArr p
    rw [hfst]
    rw [List.mem_insertionSort]
    simp only [List.mem_filter, decide_eq_true_eq]
    tauto
  · intro s posArr
    rw [hfst]
    haveI : IsTotal Position (closeLE s.assetPrice) := ⟨closeLE_total s.assetPrice⟩
    haveI : IsTrans Position (closeLE s.assetPrice) := ⟨closeLE_trans s.assetPrice⟩
    exact List.sorted_insertionSort _ _
  · have h1 : |(2:ℚ)/5| = 2/5 := abs_of_nonneg (by norm_num)
    have h2 : |(1:ℚ)/10| = 1/10 := abs_of_nonneg (by norm_num)
    norm_num [liquidationGroups, stateCD, posC, posD, closeLE,
      List.filter_cons, decide_eq_true_eq, h1, h2]

/-- C1 counterexample: `liquidationGroups` on the sole open position `0xB`
(unknown liquidation price) yields a nonempty candidate list, yet
`execute()` performs only the Multicall flag dry run and one `aggregate3`
flag batch: it never reads `canLiquidate` (which `liquidatePosition` would
do first) and never submits a stand-alone transaction. -/
theorem liquidation_execute_counterexample :
    executeLiq liqStateB liqExecEnvB
      = [Action.dryRunFlagBatch ["0xB"],
         Action.submitAggregate3 ["0xB"] (some (mkGasOpts 100 1))] ∧
    (liquidationGroups liqStateB [posB]).2.1 = [posB] ∧
    (executeLiq liqStateB liqExecEnvB).count (Action.readCanLiquidate "0xB") = 0 ∧
    (executeLiq liqStateB liqExecEnvB).count
      (Action.submitLiquidate "0xB" none) = 0 := by
  have hexec : executeLiq liqStateB liqExecEnvB
      = [Action.dryRunFlagBatch ["0xB"],
         Action.submitAggregate3 ["0xB"] (some (mkGasOpts 100 1))] := by
    norm_num [executeLiq, liqStateB, liqExecEnvB, posB, valuesKV, chunkList, mkGasOpts,
      List.filter_cons, decide_eq_true_eq]
  refine ⟨hexec, ?_, ?_, ?_⟩
  · norm_num [liquidationGroups, liqStateB, posB, List.insertionSort,
      List.filter_cons, decide_eq_true_eq]
  · rw [hexec]
    simp [List.count_cons, mkGasOpts]
  · rw [hexec]
    simp [List.count_cons, mkGasOpts]

/-- C1 (amended): `execute()` does not walk the liquidation groups and
never calls `liquidatePosition`: every transaction it submits is the
single Multicall `aggregate3` batch of `flagPosition` calls for the
dry-run-approved open positions (capped at the first 20).  The uncalled
`liquidatePosition` helper performs exactly the per-account logic the
claim describes: it reads `canLiquidate` and `isFlagged`; when neither
holds it refreshes `liqPrice` from `liquidationPrice` and stamps
`liqPriceUpdatedTimestamp := blockTipTimestamp` without submitting; when
already flagged it submits `liquidatePosition`; otherwise it submits
`flagPosition` and, on success, immediately submits `liquidatePosition`. -/
theorem liquidation_execute_spec :
    (∀ (s : LiqState) (env : LiqExecEnv) (act : Action),
      act ∈ executeLiq s env → isSubmission act = true →
      act = Action.submitAggregate3
        (((((valuesKV s.positions).filter (fun p => decide (|p.size| > 0))).filter
            (fun p => env.staticSuccess p.account)).take 20).map (·.account))
        (some (mkGasOpts env.aggEstimate env.gasPrice))) ∧
    (∀ (s : LiqState) (a : String) (env : LiqPosEnv) (p : Position),
      env.canLiquidate = false → env.isFlagged = false →
      getKV s.positions a = some p →
      liquidatePosition s a env =
        { state := { s with positions := setKV s.positions a (refreshPosition p env.liquidationPrice s.blockTipTimestamp) }
          actions := [Action.readCanLiquidate a, Action.readIsFlagged a,
                      Action.readLiquidationPrice a]
          metrics := [] }) ∧
    (∀ (s : LiqState) (a : String) (env : LiqPosEnv),
      env.isFlagged = true →
      (liquidatePosition s a env).state = s ∧
      (liquidatePosition s a env).actions
        = [Action.readCanLiquidate a, Action.readIsFlagged a,
           Action.submitLiquidate a (some (mkGasOpts env.liqEstimate env.gasPrice))]) ∧
    (∀ (s : LiqState) (a : String) (env : LiqPosEnv),
      env.canLiquidate = true → env.isFlagged = false → env.flagTxOk = true →
      (liquidatePosition s a env).state = s ∧
      (liquidatePosition s a env).actions
        = [Action.readCanLiquidate a, Action.readIsFlagged a,
           Action.submitFlag a (some (mkGasOpts env.flagEstimate env.gasPrice)),
           Action.submitLiquidate a none]) := by
  refine ⟨?_, ?_, ?_, ?_⟩
  · intro s env act hmem hsub
    simp only [executeLiq] at hmem
    split_ifs at hmem with h1 h2
    · simp at hmem
    · obtain ⟨page, -, heq⟩ := List.mem_map.1 hmem
      rw [← heq] at hsub
      simp [isSubmission] at hsub
    · rcases List.mem_append.1 hmem with h | h
      · obtain ⟨page, -, heq⟩ := List.mem_map.1 h
        rw [← heq] at hsub
        simp [isSubmission] at hsub
      · rw [List.mem_singleton] at h
        rw [h]
        rw [chunkList_filter_flatten]
  · intro s a env p hcan hflag hp
    unfold liquidatePosition
    rw [hp]
    simp [hcan, hflag]
  · intro s a env hflag
    unfold liquidatePosition
    simp [hflag]
  · intro s a env hcan hflag hok
    unfold liquidatePosition
    simp [hcan, hflag, hok]

/-- C1 witness: the refresh branch of `liquidatePosition` at a concrete
state and environment. -/
theorem liquidation_execute_spec_witness :
    liquidatePosition liqStateB "0xB"
        { canLiquidate := false, isFlagged := false, liquidationPrice := 9,
          flagEstimate := 50, liqEstimate := 80, gasPrice := 3,
          flagTxOk := true, liqTxOk := true }
      = { state := { liqStateB with positions := setKV liqStateB.positions "0xB" (refreshPosition posB 9 0) }
          actions := [Action.readCanLiquidate "0xB", Action.readIsFlagged "0xB",
                      Action.readLiquidationPrice "0xB"]
          metrics := [] } :=
  liquidation_execute_spec.2.1 liqStateB "0xB"
    { canLiquidate := false, isFlagged := false, liquidationPrice := 9,
      flagEstimate := 50, liqEstimate := 80, gasPrice := 3,
      flagTxOk := true, liqTxOk := true } posB rfl rfl rfl

end PerpsKeeper
